import Mathlib

/-!
Verification of the device-configuration provisioning tool.

Bytes are modelled as `Nat` (values 0..255 where it matters), byte strings as
`List Nat`, text as `List Char`, and Python dicts as ordered association
lists `List (String × JVal)` (insertion order preserved, as in CPython).
Fallible operations return `Option`.  Each definition is a shallow embedding
of the corresponding Python function of the repository.
-/

namespace DeviceConfig

/-- JSON values, as produced by `json.loads` / consumed by `json.dumps`:
null, booleans, integers, strings, arrays and objects (ordered mappings). -/
inductive JVal where
  | null : JVal
  | bool (b : Bool) : JVal
  | int (n : Int) : JVal
  | str (s : String) : JVal
  | arr (elems : List JVal) : JVal
  | obj (fields : List (String × JVal)) : JVal
deriving Repr

mutual

/-- Structural equality of JSON values (Python `==` on parsed JSON). -/
def JVal.beq : JVal → JVal → Bool
  | .null, .null => true
  | .bool a, .bool b => a == b
  | .int a, .int b => a == b
  | .str a, .str b => a == b
  | .arr a, .arr b => JVal.beqList a b
  | .obj a, .obj b => JVal.beqFields a b
  | _, _ => false

def JVal.beqList : List JVal → List JVal → Bool
  | [], [] => true
  | a :: as, b :: bs => JVal.beq a b && JVal.beqList as bs
  | _, _ => false

def JVal.beqFields : List (String × JVal) → List (String × JVal) → Bool
  | [], [] => true
  | (ka, va) :: as, (kb, vb) :: bs => ka == kb && JVal.beq va vb && JVal.beqFields as bs
  | _, _ => false

end

mutual

theorem JVal.beq_iff : ∀ a b : JVal, JVal.beq a b = true ↔ a = b
  | .null, .null => by simp [JVal.beq]
  | .null, .bool _ | .null, .int _ | .null, .str _ | .null, .arr _ | .null, .obj _ => by
      simp [JVal.beq]
  | .bool _, .null | .bool _, .int _ | .bool _, .str _ | .bool _, .arr _ | .bool _, .obj _ => by
      simp [JVal.beq]
  | .int _, .null | .int _, .bool _ | .int _, .str _ | .int _, .arr _ | .int _, .obj _ => by
      simp [JVal.beq]
  | .str _, .null | .str _, .bool _ | .str _, .int _ | .str _, .arr _ | .str _, .obj _ => by
      simp [JVal.beq]
  | .arr _, .null | .arr _, .bool _ | .arr _, .int _ | .arr _, .str _ | .arr _, .obj _ => by
      simp [JVal.beq]
  | .obj _, .null | .obj _, .bool _ | .obj _, .int _ | .obj _, .str _ | .obj _, .arr _ => by
      simp [JVal.beq]
  | .bool a, .bool b => by simp [JVal.beq]
  | .int a, .int b => by simp [JVal.beq]
  | .str a, .str b => by simp [JVal.beq]
  | .arr a, .arr b => by
      simp only [JVal.beq, JVal.arr.injEq]
      exact JVal.beqList_iff a b
  | .obj a, .obj b => by
      simp only [JVal.beq, JVal.obj.injEq]
      exact JVal.beqFields_iff a b

theorem JVal.beqList_iff : ∀ a b : List JVal, JVal.beqList a b = true ↔ a = b
  | [], [] => by simp [JVal.beqList]
  | [], _ :: _ => by simp [JVal.beqList]
  | _ :: _, [] => by simp [JVal.beqList]
  | a :: as, b :: bs => by
      simp only [JVal.beqList, Bool.and_eq_true, List.cons.injEq]
      exact and_congr (JVal.beq_iff a b) (JVal.beqList_iff as bs)

theorem JVal.beqFields_iff : ∀ a b : List (String × JVal), JVal.beqFields a b = true ↔ a = b
  | [], [] => by simp [JVal.beqFields]
  | [], _ :: _ => by simp [JVal.beqFields]
  | _ :: _, [] => by simp [JVal.beqFields]
  | (ka, va) :: as, (kb, vb) :: bs => by
      simp only [JVal.beqFields, Bool.and_eq_true, List.cons.injEq, beq_iff_eq,
        Prod.mk.injEq, and_assoc]
      exact and_congr_right fun _ =>
        and_congr (JVal.beq_iff va vb) (JVal.beqFields_iff as bs)

end

instance : DecidableEq JVal := fun a b =>
  decidable_of_iff (JVal.beq a b = true) (JVal.beq_iff a b)

/-- Python truthiness of a JSON value (`if not received`, `if not is_locked`):
`None`, `False`, `0`, `""`, `[]` and `{}` are falsy. -/
def jtruthy : JVal → Bool
  | .null => false
  | .bool b => b
  | .int n => n != 0
  | .str s => s ≠ ""
  | .arr l => !l.isEmpty
  | .obj m => !m.isEmpty

/-- Python dict membership/subscript on an ordered mapping: first binding wins. -/
def dictLookup (m : List (String × JVal)) (k : String) : Option JVal :=
  match m with
  | [] => none
  | (k', v) :: t => if k' = k then some v else dictLookup t k

namespace SettingsHandler

/-- `settings_handler.py`: the fixed exclusion set of `SettingsHandler.verify`
(write-only control keys and key-material keys). -/
def excluded_keys : List String :=
  ["save", "reset", "settings/key_0", "settings/key_1", "settings/key_2"]

/-- The `for key, value in expected.items()` loop of `SettingsHandler.verify`,
threading the `is_verified` flag.  The loop never breaks early: every entry is
examined even after a mismatch has been found. -/
def verifyLoop (received : List (String × JVal)) :
    List (String × JVal) → Bool → Bool
  | [], is_verified => is_verified
  | (key, value) :: rest, is_verified =>
    if key ∈ excluded_keys then verifyLoop received rest is_verified
    else
      match dictLookup received key with
      | some received_value =>
          if received_value ≠ value then verifyLoop received rest false
          else verifyLoop received rest is_verified
      | none => verifyLoop received rest false

/-- `SettingsHandler.verify(expected, received)`: reject an empty (falsy)
snapshot outright, then require every non-excluded expected key to be present
with an equal value. -/
def verify (expected received : List (String × JVal)) : Bool :=
  if received.isEmpty then false
  else verifyLoop received expected true

/-- The keys `SettingsHandler.verify` reports individually (one log line per
mismatched value and per missing key), mirroring the two `logger.error`
branches of the loop. -/
def verifyReport (received : List (String × JVal)) :
    List (String × JVal) → List String
  | [] => []
  | (key, value) :: rest =>
    if key ∈ excluded_keys then verifyReport received rest
    else
      match dictLookup received key with
      | some received_value =>
          if received_value ≠ value then key :: verifyReport received rest
          else verifyReport received rest
      | none => key :: verifyReport received rest

theorem verifyLoop_acc (received : List (String × JVal)) :
    ∀ (expected : List (String × JVal)) (acc : Bool),
      verifyLoop received expected acc
        = (acc && expected.all fun p =>
            decide (p.1 ∈ excluded_keys) || (dictLookup received p.1 == some p.2))
  | [], acc => by simp [verifyLoop]
  | (key, value) :: rest, acc => by
      by_cases hk : key ∈ excluded_keys
      · simp [verifyLoop, hk, verifyLoop_acc received rest acc]
      · cases hl : dictLookup received key with
        | none => simp [verifyLoop, hk, hl, verifyLoop_acc received rest false]
        | some rv =>
            by_cases hv : rv = value
            · simp [verifyLoop, hk, hl, hv, verifyLoop_acc received rest acc]
            · simp [verifyLoop, hk, hl, hv, verifyLoop_acc received rest false]

theorem verifyReport_complete (received : List (String × JVal)) :
    ∀ (expected : List (String × JVal)), ∀ p ∈ expected,
      p.1 ∉ excluded_keys → dictLookup received p.1 ≠ some p.2 →
        p.1 ∈ verifyReport received expected
  | [], p, hp => by cases hp
  | (key, value) :: rest, p, hp => by
      intro hne hnl
      rcases List.mem_cons.mp hp with hEq | hmem
      · subst hEq
        simp only [verifyReport, if_neg hne]
        cases hl : dictLookup received key with
        | none => exact List.mem_cons_self _ _
        | some rv =>
            have hrv : rv ≠ value := fun h => hnl (by rw [hl, h])
            simp only [ne_eq, hrv, not_false_eq_true, if_pos]
            exact List.mem_cons_self _ _
      · have ih := verifyReport_complete received rest p hmem hne hnl
        by_cases hk : key ∈ excluded_keys
        · simpa [verifyReport, hk] using ih
        · simp only [verifyReport, if_neg hk]
          cases hl : dictLookup received key with
          | none => exact List.mem_cons_of_mem _ ih
          | some rv =>
              by_cases hrv : rv = value
              · simpa [hrv] using ih
              · simp only [ne_eq, hrv, not_false_eq_true, if_pos]
                exact List.mem_cons_of_mem _ ih

end SettingsHandler

/-- C10: `SettingsHandler.verify` returns false on an empty received snapshot
(the Python falsiness check `if not received`), regardless of `expected` —
even when `expected` is empty or contains only excluded keys: the
empty-received check precedes and overrides the per-key comparison. -/
theorem verify_empty_received_false (expected : List (String × JVal)) :
    SettingsHandler.verify expected [] = false := by
  simp [SettingsHandler.verify]

/-- C3 counterexample: with `expected = {"save": true}` (all keys excluded)
and an empty received snapshot, every non-excluded key of `expected` is
trivially matched, so the claimed equivalence demands `verify = true`; the
code returns `false`. -/
theorem verify_iff_cex :
    SettingsHandler.verify [("save", JVal.bool true)] [] = false
      ∧ "save" ∈ SettingsHandler.excluded_keys := by
  constructor
  · simp [SettingsHandler.verify]
  · simp [SettingsHandler.excluded_keys]

/-- C3 (amended): provided the received snapshot is non-empty,
`verify(expected, received)` returns true iff every key of `expected` outside
the fixed exclusion set is present in `received` with an equal value; and the
check does not short-circuit: every offending entry (value mismatch or missing
key) is individually reported.  (When `received` is empty, `verify` returns
false regardless of `expected`.) -/
theorem verify_iff_amended (expected received : List (String × JVal))
    (h : received ≠ []) :
    (SettingsHandler.verify expected received = true ↔
      ∀ p ∈ expected,
        p.1 ∈ SettingsHandler.excluded_keys ∨ dictLookup received p.1 = some p.2)
    ∧ (∀ p ∈ expected, p.1 ∉ SettingsHandler.excluded_keys →
        dictLookup received p.1 ≠ some p.2 →
          p.1 ∈ SettingsHandler.verifyReport received expected) := by
  constructor
  · have hne : received.isEmpty = false := by
      cases received with
      | nil => exact absurd rfl h
      | cons a t => rfl
    rw [SettingsHandler.verify, hne, if_neg (by simp),
      SettingsHandler.verifyLoop_acc, Bool.true_and, List.all_eq_true]
    constructor
    · intro hall p hp
      have := hall p hp
      simpa [decide_eq_true_eq] using this
    · intro hall p hp
      have := hall p hp
      simpa [decide_eq_true_eq] using this
  · exact SettingsHandler.verifyReport_complete received expected

/-- C3 witness: the spec's own example `verify({"a":1,"save":true}, {"a":1})`,
evaluated through the amended theorem. -/
theorem verify_iff_amended_witness :
    ([(("a" : String), JVal.int 1)] ≠ ([] : List (String × JVal)))
    ∧ ((SettingsHandler.verify [("a", JVal.int 1), ("save", JVal.bool true)]
          [("a", JVal.int 1)] = true ↔
        ∀ p ∈ [(("a" : String), JVal.int 1), ("save", JVal.bool true)],
          p.1 ∈ SettingsHandler.excluded_keys
            ∨ dictLookup [("a", JVal.int 1)] p.1 = some p.2)
      ∧ (∀ p ∈ [(("a" : String), JVal.int 1), ("save", JVal.bool true)],
          p.1 ∉ SettingsHandler.excluded_keys →
          dictLookup [("a", JVal.int 1)] p.1 ≠ some p.2 →
            p.1 ∈ SettingsHandler.verifyReport [("a", JVal.int 1)]
              [("a", JVal.int 1), ("save", JVal.bool true)])) :=
  ⟨by simp,
   verify_iff_amended [("a", JVal.int 1), ("save", JVal.bool true)]
     [("a", JVal.int 1)] (by simp)⟩

/-- Python `bytes.replace` with a one-byte pattern `p` and replacement
sequence `r`. -/
def replace1 (p : Nat) (r : List Nat) : List Nat → List Nat
  | [] => []
  | a :: t => if a = p then r ++ replace1 p r t else a :: replace1 p r t

/-- Python `bytes.replace` with a two-byte pattern `p₁ p₂` and a one-byte
replacement `r`: scans left to right, never rescanning replaced output. -/
def replace2 (p₁ p₂ r : Nat) : List Nat → List Nat
  | [] => []
  | [a] => [a]
  | a :: b :: t =>
    if a = p₁ ∧ b = p₂ then r :: replace2 p₁ p₂ r t
    else a :: replace2 p₁ p₂ r (b :: t)

/-- Python `bytes.strip(bytes([b]))`: remove every leading and trailing `b`
byte. -/
def stripByte (b : Nat) (l : List Nat) : List Nat :=
  ((l.dropWhile fun x => x = b).reverse.dropWhile fun x => x = b).reverse

/-- Does the byte sequence contain `p₁` immediately followed by `p₂`? -/
def hasSeq (p₁ p₂ : Nat) : List Nat → Bool
  | [] => false
  | [_] => false
  | a :: b :: t => (a = p₁ && b = p₂) || hasSeq p₁ p₂ (b :: t)

namespace Slip

def END : Nat := 0x0A
def ESC : Nat := 0xDB
def ESC_END : Nat := 0xDC
def ESC_ESC : Nat := 0xDD

/-- `Slip.encode`: escape every ESC byte, then every END byte, and append a
single trailing END terminator. -/
def encode (data : List Nat) : List Nat :=
  replace1 END [ESC, ESC_END] (replace1 ESC [ESC, ESC_ESC] data) ++ [END]

/-- `Slip.decode`: undo the ESC-ESC_ESC substitution, then the ESC-ESC_END
substitution, then strip leading and trailing END bytes. -/
def decode (data : List Nat) : List Nat :=
  stripByte END (replace2 ESC ESC_END END (replace2 ESC ESC_ESC ESC data))

end Slip

theorem replace2_cons_ne (p₁ p₂ r a : Nat) (w : List Nat)
    (h : a ≠ p₁ ∨ w.head? ≠ some p₂) :
    replace2 p₁ p₂ r (a :: w) = a :: replace2 p₁ p₂ r w := by
  cases w with
  | nil => simp [replace2]
  | cons b w' =>
    have hcond : ¬(a = p₁ ∧ b = p₂) := by
      rcases h with h | h
      · exact fun hc => h hc.1
      · exact fun hc => h (by simp [hc.2])
    simp [replace2, hcond]

theorem hasSeq_tail {p₁ p₂ a : Nat} {t : List Nat}
    (h : hasSeq p₁ p₂ (a :: t) = false) : hasSeq p₁ p₂ t = false := by
  cases t with
  | nil => rfl
  | cons b t' =>
    have := h
    simp only [hasSeq, Bool.or_eq_false_iff] at this
    exact this.2

theorem replace1_cons (p : Nat) (r : List Nat) (a : Nat) (t : List Nat) :
    replace1 p r (a :: t)
      = if a = p then r ++ replace1 p r t else a :: replace1 p r t := rfl

theorem replace2_cons2 (p₁ p₂ r a b : Nat) (t : List Nat) :
    replace2 p₁ p₂ r (a :: b :: t)
      = if a = p₁ ∧ b = p₂ then r :: replace2 p₁ p₂ r t
        else a :: replace2 p₁ p₂ r (b :: t) := rfl

theorem decode_step1 : ∀ x s : List Nat,
    replace2 219 221 219 (replace1 10 [219, 220] (replace1 219 [219, 221] x) ++ s)
      = replace1 10 [219, 220] x ++ replace2 219 221 219 s
  | [], s => by simp [replace1]
  | a :: t, s => by
    by_cases hesc : a = 219
    · subst hesc
      rw [replace1_cons 219 _ 219 t, if_pos rfl,
        show ([219, 221] ++ replace1 219 [219, 221] t)
          = 219 :: 221 :: replace1 219 [219, 221] t from rfl,
        replace1_cons 10 _ 219, if_neg (by decide),
        replace1_cons 10 _ 221, if_neg (by decide),
        List.cons_append, List.cons_append,
        replace2_cons2, if_pos ⟨rfl, rfl⟩,
        decode_step1 t s,
        replace1_cons 10 _ 219 t, if_neg (by decide), List.cons_append]
    · by_cases hend : a = 10
      · subst hend
        rw [replace1_cons 219 _ 10 t, if_neg (by decide),
          replace1_cons 10 _ 10, if_pos rfl,
          show ([219, 220] ++ replace1 10 [219, 220] (replace1 219 [219, 221] t))
            = 219 :: 220 :: replace1 10 [219, 220] (replace1 219 [219, 221] t)
            from rfl,
          List.cons_append, List.cons_append,
          replace2_cons2, if_neg (by decide),
          replace2_cons_ne 219 221 219 220 _ (Or.inl (by decide)),
          decode_step1 t s,
          replace1_cons 10 _ 10 t, if_pos rfl,
          show ([219, 220] ++ replace1 10 [219, 220] t)
            = 219 :: 220 :: replace1 10 [219, 220] t from rfl,
          List.cons_append, List.cons_append]
      · rw [replace1_cons 219 _ a t, if_neg hesc,
          replace1_cons 10 _ a, if_neg hend,
          List.cons_append,
          replace2_cons_ne 219 221 219 a _ (Or.inl hesc),
          decode_step1 t s,
          replace1_cons 10 _ a t, if_neg hend, List.cons_append]

theorem decode_step2 : ∀ x : List Nat, hasSeq 219 220 x = false →
    replace2 219 220 10 (replace1 10 [219, 220] x ++ [10]) = x ++ [10]
  | [], _ => by simp [replace1, replace2]
  | a :: t, h => by
    by_cases hend : a = 10
    · subst hend
      rw [replace1_cons 10 _ 10 t, if_pos rfl,
        show ([219, 220] ++ replace1 10 [219, 220] t)
          = 219 :: 220 :: replace1 10 [219, 220] t from rfl,
        List.cons_append, List.cons_append,
        replace2_cons2, if_pos ⟨rfl, rfl⟩,
        decode_step2 t (hasSeq_tail h), List.cons_append]
    · rw [replace1_cons 10 _ a t, if_neg hend, List.cons_append]
      by_cases hesc : a = 219
      · subst hesc
        have hhead : (replace1 10 [219, 220] t ++ [10]).head? ≠ some 220 := by
          cases t with
          | nil => simp [replace1]
          | cons c t' =>
            by_cases hc : c = 10
            · subst hc
              simp [replace1]
            · have hc220 : c ≠ 220 := by
                intro hc220
                subst hc220
                simp [hasSeq] at h
              simp [replace1_cons, hc, hc220]
        rw [replace2_cons_ne 219 220 10 219 _ (Or.inr hhead),
          decode_step2 t (hasSeq_tail h), List.cons_append]
      · rw [replace2_cons_ne 219 220 10 a _ (Or.inl hesc),
          decode_step2 t (hasSeq_tail h), List.cons_append]

theorem dropWhile_of_head_ne {b : Nat} {l : List Nat}
    (h : l.head? ≠ some b) : (l.dropWhile fun x => x = b) = l := by
  cases l with
  | nil => rfl
  | cons a t =>
    have ha : a ≠ b := fun hab => h (by simp [hab])
    simp [List.dropWhile_cons, ha]

theorem stripByte_sandwich (b : Nat) (x : List Nat)
    (h1 : x.head? ≠ some b) (h2 : x.getLast? ≠ some b) :
    stripByte b (x ++ [b]) = x := by
  cases x with
  | nil => simp [stripByte, List.dropWhile]
  | cons a t =>
    unfold stripByte
    rw [List.cons_append,
      show ((a :: (t ++ [b])).dropWhile fun x => x = b) = a :: (t ++ [b]) from
        dropWhile_of_head_ne (by simpa using h1)]
    have hrev : (a :: (t ++ [b])).reverse = b :: (a :: t).reverse := by
      rw [show a :: (t ++ [b]) = (a :: t) ++ [b] from rfl]
      simp
    rw [hrev]
    rw [show ((b :: (a :: t).reverse).dropWhile fun x => x = b)
          = ((a :: t).reverse.dropWhile fun x => x = b) from by
        simp [List.dropWhile_cons]]
    rw [dropWhile_of_head_ne (by rwa [List.head?_reverse])]
    exact List.reverse_reverse _

/-- C1 counterexample: the round trip fails on concrete inputs.  For
`x = [0xDB, 0xDC]` (an escape-marker byte followed by an escape-sequence
byte) decoding re-replaces the unescaped pair, and for `x = [0x0A]` (an
end-marker byte) the final strip removes the data byte; both round-trip to
the empty sequence. -/
theorem slip_roundtrip_cex :
    Slip.decode (Slip.encode [0xDB, 0xDC]) = []
    ∧ Slip.decode (Slip.encode [0x0A]) = []
    ∧ Slip.decode (Slip.encode [0xDB, 0xDC]) ≠ [0xDB, 0xDC] := by decide

/-- C1 (amended): `decode(encode(x)) == x` holds for every byte sequence `x`
that contains no `0xDB` byte immediately followed by `0xDC` and that neither
begins nor ends with the end-marker byte `0x0A`.  (Escape-marker bytes,
interior end-marker bytes and `0xDC`/`0xDD` bytes on their own are fine.) -/
theorem slip_roundtrip_amended (x : List Nat)
    (h1 : hasSeq Slip.ESC Slip.ESC_END x = false)
    (h2 : x.head? ≠ some Slip.END)
    (h3 : x.getLast? ≠ some Slip.END) :
    Slip.decode (Slip.encode x) = x := by
  simp only [Slip.ESC, Slip.ESC_END, Slip.END] at h1 h2 h3
  show stripByte Slip.END (replace2 Slip.ESC Slip.ESC_END Slip.END
    (replace2 Slip.ESC Slip.ESC_ESC Slip.ESC (Slip.encode x))) = x
  simp only [Slip.encode, Slip.ESC, Slip.ESC_END, Slip.ESC_ESC, Slip.END]
  rw [decode_step1 x [10]]
  rw [show replace2 219 221 219 [10] = [10] from by simp [replace2]]
  rw [decode_step2 x h1]
  exact stripByte_sandwich 10 x h2 h3

/-- C1 witness: a sequence containing an escape-marker byte, an interior
end-marker byte, and both escape-sequence bytes round-trips exactly. -/
theorem slip_roundtrip_amended_witness :
    (hasSeq Slip.ESC Slip.ESC_END [219, 10, 65, 221, 220] = false
      ∧ ([219, 10, 65, 221, 220] : List Nat).head? ≠ some Slip.END
      ∧ ([219, 10, 65, 221, 220] : List Nat).getLast? ≠ some Slip.END)
    ∧ Slip.decode (Slip.encode [219, 10, 65, 221, 220]) = [219, 10, 65, 221, 220] :=
  ⟨⟨by decide, by decide, by decide⟩,
   slip_roundtrip_amended [219, 10, 65, 221, 220] (by decide) (by decide) (by decide)⟩

namespace SlipSerialReader

/-- The `while Slip.END in self.buffer` loop of
`SlipSerialReader.data_received`: repeatedly slice off the inclusive prefix up
to the first end marker as one raw frame, returning the raw frames in
extraction order together with the remaining buffered bytes. -/
def drainFrames (buf : List Nat) : List (List Nat) × List Nat :=
  if h : Slip.END ∈ buf then
    let end_index := buf.indexOf Slip.END
    let raw_packet := buf.take (end_index + 1)
    let rest := buf.drop (end_index + 1)
    let p := drainFrames rest
    (raw_packet :: p.1, p.2)
  else ([], buf)
termination_by buf.length
decreasing_by
  simp only [List.length_drop]
  have h1 : buf.indexOf Slip.END < buf.length := List.indexOf_lt_length.mpr h
  omega

/-- `SlipSerialReader.data_received`: append the incoming chunk to the buffer
and extract every complete frame.  The state pairs the raw frames dispatched
so far (in order) with the buffered remainder. -/
def data_received (st : List (List Nat) × List Nat) (data : List Nat) :
    List (List Nat) × List Nat :=
  let d := drainFrames (st.2 ++ data)
  (st.1 ++ d.1, d.2)

/-- `SlipSerialReader.process_packet`: decode a raw frame; an empty decoded
frame is dropped silently, otherwise the first byte is the address and the
rest the payload. -/
def process_packet (packet : List Nat) : Option (Nat × List Nat) :=
  match Slip.decode packet with
  | [] => none
  | a :: p => some (a, p)

theorem drainFrames_of_mem {buf : List Nat} (h : Slip.END ∈ buf) :
    drainFrames buf
      = (buf.take (buf.indexOf Slip.END + 1)
            :: (drainFrames (buf.drop (buf.indexOf Slip.END + 1))).1,
         (drainFrames (buf.drop (buf.indexOf Slip.END + 1))).2) := by
  rw [drainFrames]
  simp only [dif_pos h]

theorem drainFrames_no_end {buf : List Nat} (h : Slip.END ∉ buf) :
    drainFrames buf = ([], buf) := by
  rw [drainFrames]
  simp only [dif_neg h]

theorem drainFrames_rest_no_end (buf : List Nat) :
    Slip.END ∉ (drainFrames buf).2 := by
  by_cases h : Slip.END ∈ buf
  · rw [drainFrames_of_mem h]
    exact drainFrames_rest_no_end (buf.drop (buf.indexOf Slip.END + 1))
  · rw [drainFrames_no_end h]
    exact h
termination_by buf.length
decreasing_by
  simp only [List.length_drop]
  have h1 : buf.indexOf Slip.END < buf.length := List.indexOf_lt_length.mpr h
  omega

theorem drainFrames_append (b c : List Nat) :
    drainFrames (b ++ c)
      = ((drainFrames b).1 ++ (drainFrames ((drainFrames b).2 ++ c)).1,
         (drainFrames ((drainFrames b).2 ++ c)).2) := by
  by_cases h : Slip.END ∈ b
  · have hidx : b.indexOf Slip.END < b.length := List.indexOf_lt_length.mpr h
    have h1 : b.indexOf Slip.END + 1 ≤ b.length := hidx
    have hmem : Slip.END ∈ b ++ c := List.mem_append.mpr (Or.inl h)
    rw [drainFrames_of_mem hmem, drainFrames_of_mem h,
      List.indexOf_append_of_mem h,
      List.take_append_of_le_length h1, List.drop_append_of_le_length h1,
      drainFrames_append (b.drop (b.indexOf Slip.END + 1)) c]
    simp
  · rw [drainFrames_no_end h]
    simp
termination_by b.length
decreasing_by
  simp only [List.length_drop]
  omega

theorem data_received_foldl :
    ∀ (chunks : List (List Nat)) (fs : List (List Nat)) (buf : List Nat),
      Slip.END ∉ buf →
      List.foldl data_received (fs, buf) chunks
        = (fs ++ (drainFrames (buf ++ chunks.flatten)).1,
           (drainFrames (buf ++ chunks.flatten)).2)
  | [], fs, buf, h => by
      simp [drainFrames_no_end h]
  | c :: rest, fs, buf, h => by
      rw [List.foldl_cons,
        show data_received (fs, buf) c
          = (fs ++ (drainFrames (buf ++ c)).1, (drainFrames (buf ++ c)).2)
          from rfl,
        data_received_foldl rest _ _ (drainFrames_rest_no_end (buf ++ c)),
        List.flatten_cons, ← List.append_assoc,
        drainFrames_append (buf ++ c) rest.flatten]
      simp

end SlipSerialReader

/-- C8: feeding a byte stream to the Frame Extractor in arbitrary chunks
produces exactly the same state — the same ordered sequence of raw frames and
the same buffered remainder — as feeding the concatenated stream in a single
`data_received` call, and hence also the same ordered sequence of decoded
(address, payload) frames. -/
theorem frame_extractor_chunking_independent (chunks : List (List Nat)) :
    List.foldl SlipSerialReader.data_received ([], []) chunks
      = SlipSerialReader.data_received ([], []) chunks.flatten
    ∧ ((List.foldl SlipSerialReader.data_received ([], []) chunks).1.filterMap
          SlipSerialReader.process_packet
        = (SlipSerialReader.data_received ([], []) chunks.flatten).1.filterMap
            SlipSerialReader.process_packet) := by
  have h := SlipSerialReader.data_received_foldl chunks [] [] (by simp)
  have h2 : SlipSerialReader.data_received ([], []) chunks.flatten
      = ([] ++ (SlipSerialReader.drainFrames ([] ++ chunks.flatten)).1,
         (SlipSerialReader.drainFrames ([] ++ chunks.flatten)).2) := rfl
  rw [h, h2]
  exact ⟨rfl, rfl⟩

namespace ProtobufDelimitedBuffer

/-- The `for i, byte in enumerate(buf)` loop of
`ProtobufDelimitedBuffer._read_varint`, threading `result`, `shift` and the
byte index; running off the end models the raised `ValueError` as `none`. -/
def readVarintGo : List Nat → Nat → Nat → Nat → Option (Nat × Nat)
  | [], _, _, _ => none
  | byte :: rest, result, shift, i =>
    let result' := result ||| ((byte &&& 0x7F) <<< shift)
    if byte &&& 0x80 = 0 then some (result', i + 1)
    else readVarintGo rest result' (shift + 7) (i + 1)

/-- `ProtobufDelimitedBuffer._read_varint(buf)`: parse a base-128 varint from
the buffer head, returning `(value, length of the varint)`. -/
def read_varint (buf : List Nat) : Option (Nat × Nat) :=
  readVarintGo buf 0 0 0

/-- `ProtobufDelimitedBuffer._extract_next_message(buf)`: `(None, buf)` when
the varint or the declared payload is not yet complete, otherwise the sliced
message together with the bytes after it. -/
def extract_next_message (buf : List Nat) : Option (List Nat) × List Nat :=
  match read_varint buf with
  | none => (none, buf)
  | some (size, size_len) =>
    if buf.length < size_len + size then (none, buf)
    else (some ((buf.drop size_len).take size), buf.drop (size_len + size))

theorem readVarintGo_len : ∀ (buf : List Nat) (result shift i v L : Nat),
    readVarintGo buf result shift i = some (v, L) → i < L
  | [], _, _, _, _, _, h => by simp [readVarintGo] at h
  | byte :: rest, result, shift, i, v, L, h => by
    by_cases hb : byte &&& 0x80 = 0
    · simp only [readVarintGo, if_pos hb, Option.some.injEq, Prod.mk.injEq] at h
      omega
    · simp only [readVarintGo, if_neg hb] at h
      have := readVarintGo_len rest _ _ _ _ _ h
      omega

theorem extract_eq_of_read_none {buf : List Nat} (hv : read_varint buf = none) :
    extract_next_message buf = (none, buf) := by
  unfold extract_next_message
  rw [hv]

theorem extract_eq_of_read {buf : List Nat} {size size_len : Nat}
    (hv : read_varint buf = some (size, size_len)) :
    extract_next_message buf
      = if buf.length < size_len + size then (none, buf)
        else (some ((buf.drop size_len).take size), buf.drop (size_len + size)) := by
  unfold extract_next_message
  rw [hv]

theorem extract_some_shorter {buf m r} (h : extract_next_message buf = (some m, r)) :
    r.length < buf.length := by
  cases hv : read_varint buf with
  | none => rw [extract_eq_of_read_none hv] at h; simp at h
  | some p =>
    obtain ⟨size, size_len⟩ := p
    rw [extract_eq_of_read hv] at h
    by_cases hlen : buf.length < size_len + size
    · rw [if_pos hlen] at h; simp at h
    · rw [if_neg hlen] at h
      have h1 : 0 < size_len := readVarintGo_len buf 0 0 0 size size_len hv
      obtain ⟨-, rfl⟩ := Prod.mk.injEq .. |>.mp h
      simp only [List.length_drop]
      omega

/-- The `while True` drain loop of `ProtobufDelimitedBuffer.feed`: extract
complete messages from the buffer head until the next message is incomplete;
returns the extracted messages in order and the remaining buffered bytes. -/
def drainMessages (buf : List Nat) : List (List Nat) × List Nat :=
  match h : extract_next_message buf with
  | (none, _) => ([], buf)
  | (some msg, remaining) =>
    let p := drainMessages remaining
    (msg :: p.1, p.2)
termination_by buf.length
decreasing_by exact extract_some_shorter h

/-- `ProtobufDelimitedBuffer.feed(data)`: append the chunk to the buffer and
drain; the state pairs the messages passed to the consumer so far (in order)
with the buffered remainder. -/
def feed (st : List (List Nat) × List Nat) (data : List Nat) :
    List (List Nat) × List Nat :=
  let p := drainMessages (st.2 ++ data)
  (st.1 ++ p.1, p.2)

theorem drainMessages_of_none {buf : List Nat} {b' : List Nat}
    (h : extract_next_message buf = (none, b')) :
    drainMessages buf = ([], buf) := by
  rw [drainMessages]
  split
  · rfl
  · next msg remaining heq =>
      rw [h] at heq
      simp at heq

theorem drainMessages_of_some {buf msg remaining}
    (h : extract_next_message buf = (some msg, remaining)) :
    drainMessages buf
      = (msg :: (drainMessages remaining).1, (drainMessages remaining).2) := by
  rw [drainMessages]
  split
  · next b' heq =>
      rw [h] at heq
      simp at heq
  · next msg' rem' heq =>
      rw [h] at heq
      obtain ⟨rfl, rfl⟩ : msg = msg' ∧ remaining = rem' := by simpa using heq
      rfl

/-- Varint length-prefix encoding, as the claim describes it: 7 value bits
per byte, high bit set when more bytes follow. -/
def varintEncode (n : Nat) : List Nat :=
  if h : n < 128 then [n] else (n % 128 + 128) :: varintEncode (n / 128)
termination_by n
decreasing_by
  have h' : 128 ≤ n := Nat.not_lt.mp h
  exact Nat.div_lt_self (by omega) (by omega)

/-- One length-prefixed message: varint length prefix followed by the payload. -/
def encodeMessage (p : List Nat) : List Nat :=
  varintEncode p.length ++ p

/-- Concatenation of length-prefixed messages. -/
def encodeAll (ps : List (List Nat)) : List Nat :=
  (ps.map encodeMessage).flatten

set_option maxRecDepth 8192 in
theorem land127_lt (b : Nat) (hb : b < 256) : b &&& 127 = b % 128 := by
  revert hb
  revert b
  decide

set_option maxRecDepth 8192 in
theorem land128_eq_zero (b : Nat) (hb : b < 256) : (b &&& 128 = 0) ↔ b < 128 := by
  revert hb
  revert b
  decide

theorem lor_mod_div (n s : Nat) :
    ((n % 128) <<< s) ||| ((n / 128) <<< (s + 7)) = n <<< s := by
  apply Nat.eq_of_testBit_eq
  intro i
  rw [Nat.testBit_lor, Nat.testBit_shiftLeft, Nat.testBit_shiftLeft,
    Nat.testBit_shiftLeft,
    show n / 128 = n >>> 7 from by rw [Nat.shiftRight_eq_div_pow],
    Nat.testBit_shiftRight, show (128 : Nat) = 2 ^ 7 from rfl,
    Nat.testBit_mod_two_pow]
  by_cases h1 : s ≤ i
  · by_cases h2 : s + 7 ≤ i
    · have e1 : ¬(i - s < 7) := by omega
      have e2 : 7 + (i - (s + 7)) = i - s := by omega
      simp [h1, h2, e1, e2, GE.ge]
    · have e1 : i - s < 7 := by omega
      simp [h1, h2, e1, GE.ge]
  · have h2 : ¬(s + 7 ≤ i) := by omega
    simp [h1, h2, GE.ge]

theorem readVarint_encode (n : Nat) (rest : List Nat) (result shift i : Nat)
    (hres : result < 2 ^ shift) :
    readVarintGo (varintEncode n ++ rest) result shift i
      = some (result ||| (n <<< shift), i + (varintEncode n).length) := by
  by_cases h : n < 128
  · rw [varintEncode, dif_pos h, List.cons_append, List.nil_append]
    have h256 : n < 256 := by omega
    have ha : n &&& 127 = n := by
      rw [land127_lt n h256, Nat.mod_eq_of_lt h]
    have hb : n &&& 128 = 0 := (land128_eq_zero n h256).mpr h
    simp [readVarintGo, ha, hb, varintEncode, h]
  · rw [varintEncode, dif_neg h, List.cons_append]
    have hbyte : n % 128 + 128 < 256 := by
      have hm : n % 128 < 128 := Nat.mod_lt n (by omega)
      omega
    have ha : (n % 128 + 128) &&& 127 = n % 128 := by
      rw [land127_lt _ hbyte, Nat.add_mod_right, Nat.mod_mod_of_dvd]
      exact dvd_refl 128
    have hb : ¬((n % 128 + 128) &&& 128 = 0) := by
      rw [land128_eq_zero _ hbyte]
      omega
    rw [show readVarintGo ((n % 128 + 128) :: (varintEncode (n / 128) ++ rest))
          result shift i
        = readVarintGo (varintEncode (n / 128) ++ rest)
            (result ||| (((n % 128 + 128) &&& 127) <<< shift)) (shift + 7) (i + 1)
        from by simp [readVarintGo, hb]]
    rw [ha]
    have hres' : result ||| ((n % 128) <<< shift) < 2 ^ (shift + 7) := by
      apply Nat.or_lt_two_pow
      · exact lt_of_lt_of_le hres (Nat.pow_le_pow_right (by omega) (by omega))
      · rw [Nat.shiftLeft_eq]
        calc n % 128 * 2 ^ shift < 128 * 2 ^ shift := by
              have hm : n % 128 < 128 := Nat.mod_lt n (by omega)
              exact (Nat.mul_lt_mul_right (Nat.pos_pow_of_pos shift (by omega))).mpr hm
          _ = 2 ^ (shift + 7) := by
              rw [Nat.pow_add]
              ring
    rw [readVarint_encode (n / 128) rest _ (shift + 7) (i + 1) hres']
    congr 1
    refine Prod.ext ?_ ?_
    · show (result ||| ((n % 128) <<< shift)) ||| ((n / 128) <<< (shift + 7))
        = result ||| (n <<< shift)
      rw [Nat.lor_assoc, lor_mod_div]
    · show i + 1 + (varintEncode (n / 128)).length
        = i + ((n % 128 + 128) :: varintEncode (n / 128)).length
      simp only [List.length_cons]
      omega
termination_by n
decreasing_by
  exact Nat.div_lt_self (by omega) (by omega)

theorem read_varint_encodeMessage (p rest : List Nat) :
    read_varint (encodeMessage p ++ rest)
      = some (p.length, (varintEncode p.length).length) := by
  unfold read_varint encodeMessage
  rw [List.append_assoc, readVarint_encode p.length (p ++ rest) 0 0 0 (by norm_num)]
  simp [Nat.shiftLeft_zero]

theorem extract_encodeMessage (p rest : List Nat) :
    extract_next_message (encodeMessage p ++ rest) = (some p, rest) := by
  rw [extract_eq_of_read (read_varint_encodeMessage p rest)]
  have hlen : ¬((encodeMessage p ++ rest).length
      < (varintEncode p.length).length + p.length) := by
    simp only [encodeMessage, List.length_append]
    omega
  rw [if_neg hlen]
  have hX : ((encodeMessage p ++ rest).drop
      (varintEncode p.length).length).take p.length = p := by
    rw [encodeMessage, List.append_assoc, List.drop_left, List.take_left]
  have hY : (encodeMessage p ++ rest).drop
      ((varintEncode p.length).length + p.length) = rest := by
    rw [encodeMessage, List.append_assoc,
      show (varintEncode p.length).length + p.length
        = (varintEncode p.length ++ p).length from by simp,
      ← List.append_assoc, List.drop_left]
  rw [hX, hY]

theorem drain_encodeAll : ∀ ps : List (List Nat),
    drainMessages (encodeAll ps) = (ps, [])
  | [] => by
      have h : extract_next_message [] = (none, []) := rfl
      rw [show encodeAll [] = [] from rfl, drainMessages_of_none h]
  | p :: ps' => by
      rw [show encodeAll (p :: ps') = encodeMessage p ++ encodeAll ps' from by
          simp [encodeAll]]
      rw [drainMessages_of_some (extract_encodeMessage p (encodeAll ps')),
        drain_encodeAll ps']

theorem readVarintGo_append : ∀ (buf c : List Nat) (result shift i v L : Nat),
    readVarintGo buf result shift i = some (v, L) →
    readVarintGo (buf ++ c) result shift i = some (v, L)
  | [], _, _, _, _, _, _, h => by simp [readVarintGo] at h
  | byte :: rest, c, result, shift, i, v, L, h => by
    by_cases hb : byte &&& 0x80 = 0
    · simp only [readVarintGo, if_pos hb] at h ⊢
      exact h
    · simp only [readVarintGo, if_neg hb] at h ⊢
      exact readVarintGo_append rest c _ _ _ _ _ h

theorem extract_append_of_some {buf c m r}
    (h : extract_next_message buf = (some m, r)) :
    extract_next_message (buf ++ c) = (some m, r ++ c) := by
  cases hv : read_varint buf with
  | none => rw [extract_eq_of_read_none hv] at h; simp at h
  | some q =>
    obtain ⟨size, size_len⟩ := q
    rw [extract_eq_of_read hv] at h
    by_cases hlen : buf.length < size_len + size
    · rw [if_pos hlen] at h; simp at h
    · rw [if_neg hlen] at h
      obtain ⟨hm, hr⟩ := Prod.mk.injEq .. |>.mp h
      have hv' : read_varint (buf ++ c) = some (size, size_len) :=
        readVarintGo_append buf c 0 0 0 size size_len hv
      rw [extract_eq_of_read hv']
      rw [if_neg (by simp only [List.length_append]; omega)]
      have hle : size_len ≤ buf.length := by omega
      have hle2 : size_len + size ≤ buf.length := by omega
      have hX : ((buf ++ c).drop size_len).take size = m := by
        rw [List.drop_append_of_le_length hle,
          List.take_append_of_le_length (by simp only [List.length_drop]; omega)]
        simpa using hm
      have hY : (buf ++ c).drop (size_len + size) = r ++ c := by
        rw [List.drop_append_of_le_length hle2, hr]
      rw [hX, hY]

theorem drainMessages_append (b c : List Nat) :
    drainMessages (b ++ c)
      = ((drainMessages b).1 ++ (drainMessages ((drainMessages b).2 ++ c)).1,
         (drainMessages ((drainMessages b).2 ++ c)).2) := by
  cases hex : extract_next_message b with
  | mk o r =>
    cases o with
    | none =>
        rw [drainMessages_of_none hex]
        simp
    | some m =>
        rw [drainMessages_of_some hex,
          drainMessages_of_some (extract_append_of_some hex),
          drainMessages_append r c]
        simp
termination_by b.length
decreasing_by
  exact extract_some_shorter hex

theorem drainMessages_rest_fixed (buf : List Nat) :
    drainMessages ((drainMessages buf).2) = ([], (drainMessages buf).2) := by
  cases hex : extract_next_message buf with
  | mk o r =>
    cases o with
    | none =>
        rw [drainMessages_of_none hex, drainMessages_of_none hex]
    | some m =>
        rw [drainMessages_of_some hex]
        exact drainMessages_rest_fixed r
termination_by buf.length
decreasing_by
  exact extract_some_shorter hex

theorem feed_foldl : ∀ (chunks : List (List Nat)) (out : List (List Nat))
    (buf : List Nat), drainMessages buf = ([], buf) →
    List.foldl feed (out, buf) chunks
      = (out ++ (drainMessages (buf ++ chunks.flatten)).1,
         (drainMessages (buf ++ chunks.flatten)).2)
  | [], out, buf, h => by
      simp [h]
  | c :: rest, out, buf, h => by
      rw [List.foldl_cons,
        show feed (out, buf) c
          = (out ++ (drainMessages (buf ++ c)).1, (drainMessages (buf ++ c)).2)
          from rfl,
        feed_foldl rest _ _ (drainMessages_rest_fixed (buf ++ c)),
        List.flatten_cons, ← List.append_assoc,
        drainMessages_append (buf ++ c) rest.flatten]
      simp

end ProtobufDelimitedBuffer

/-- C6: feeding the concatenation of N varint-length-prefixed payloads to the
Length-Prefixed Reassembler, split at arbitrary chunk boundaries, invokes the
consumer exactly N times with the original payloads in the original order and
empties the buffer; and a buffer that does not yet hold a complete length
prefix plus the declared number of payload bytes emits nothing and is kept —
not an error. -/
theorem delimited_reassembly_roundtrip (ps chunks : List (List Nat))
    (buf : List Nat) :
    (chunks.flatten = ProtobufDelimitedBuffer.encodeAll ps →
      List.foldl ProtobufDelimitedBuffer.feed ([], []) chunks = (ps, []))
    ∧ ((ProtobufDelimitedBuffer.read_varint buf).all
          (fun p => decide (buf.length < p.2 + p.1)) = true →
        ProtobufDelimitedBuffer.drainMessages buf = ([], buf)) := by
  constructor
  · intro hj
    rw [ProtobufDelimitedBuffer.feed_foldl chunks [] []
        (ProtobufDelimitedBuffer.drainMessages_of_none rfl)]
    simp only [List.nil_append]
    rw [hj, ProtobufDelimitedBuffer.drain_encodeAll]
  · intro hinc
    apply ProtobufDelimitedBuffer.drainMessages_of_none
    cases hv : ProtobufDelimitedBuffer.read_varint buf with
    | none => rw [ProtobufDelimitedBuffer.extract_eq_of_read_none hv]
    | some q =>
        obtain ⟨size, size_len⟩ := q
        rw [hv] at hinc
        simp only [Option.all_some, decide_eq_true_eq] at hinc
        rw [ProtobufDelimitedBuffer.extract_eq_of_read hv, if_pos hinc]

/-- C6 witness: two messages (one empty, one multi-byte) split across uneven
chunk boundaries, plus an incomplete buffer that is withheld. -/
theorem delimited_reassembly_roundtrip_witness :
    (List.foldl ProtobufDelimitedBuffer.feed ([], [])
        [[3, 1], [2, 3, 0], [], [2, 5, 6]] = ([[1, 2, 3], [], [5, 6]], []))
    ∧ ProtobufDelimitedBuffer.drainMessages [5, 1] = ([], [5, 1]) :=
  ⟨(delimited_reassembly_roundtrip [[1, 2, 3], [], [5, 6]]
      [[3, 1], [2, 3, 0], [], [2, 5, 6]] []).1 (by
        simp [ProtobufDelimitedBuffer.encodeAll,
          ProtobufDelimitedBuffer.encodeMessage,
          ProtobufDelimitedBuffer.varintEncode]),
   (delimited_reassembly_roundtrip [] [] [5, 1]).2 (by decide)⟩

/-- State of an `asyncio.Future` correlator slot: no future allocated yet
(`self.response_future is None`), a pending unresolved future, or a future
resolved with a value (`set_result`). -/
inductive Slot (α : Type) where
  | noFuture : Slot α
  | pending : Slot α
  | resolved (v : α) : Slot α
deriving DecidableEq, Repr

/-- Outcome of awaiting: the await completes with a value, or the coroutine
suspends indefinitely because nothing ever resolves the awaited future. -/
inductive WaitOutcome (α : Type) where
  | completes (v : α) : WaitOutcome α
  | suspends : WaitOutcome α
deriving DecidableEq, Repr

/-- The opening-brace character. -/
def lbrace : Char := Char.ofNat 123

/-- The closing-brace character. -/
def rbrace : Char := Char.ofNat 125

namespace SettingsHandler

/-- Mutable state of `SettingsHandler`: accumulated text, brace counter,
object-started flag, and the response future slot. -/
structure HandlerState where
  buffer : List Char
  brace_count : Int
  in_json : Bool
  response_future : Slot (Option JVal)
deriving DecidableEq, Repr

/-- One iteration of the `for ch in chunk` loop of `SettingsHandler.handle`:
an opening brace increments the count and marks `in_json`; a closing brace
decrements the count; all other characters leave the pair unchanged. -/
def braceStep (p : Int × Bool) (ch : Char) : Int × Bool :=
  if ch = lbrace then (p.1 + 1, true)
  else if ch = rbrace then (p.1 - 1, p.2)
  else p

/-- `SettingsHandler.handle(payload)`: append the chunk to the buffer, update
the brace count character by character, and when `in_json` holds with the
count back at zero, parse the whole buffer (`loads` stands for `json.loads`,
returning `none` on a decode error), resolve a pending response future with
the parse result, and reset the buffer and flag. -/
def handle (loads : List Char → Option JVal) (st : HandlerState)
    (payload : List Char) : HandlerState :=
  let buffer := st.buffer ++ payload
  let bc := payload.foldl braceStep (st.brace_count, st.in_json)
  if bc.2 ∧ bc.1 = 0 then
    let json_obj := loads buffer
    { buffer := [], brace_count := bc.1, in_json := false,
      response_future :=
        match st.response_future with
        | Slot.pending => Slot.resolved json_obj
        | f => f }
  else
    { buffer := buffer, brace_count := bc.1, in_json := bc.2,
      response_future := st.response_future }

/-- Feeding a sequence of payload chunks to `SettingsHandler.handle` in
order. -/
def feedChunks (loads : List Char → Option JVal) (st : HandlerState)
    (chunks : List (List Char)) : HandlerState :=
  chunks.foldl (handle loads) st

end SettingsHandler

namespace FWInfoReader

/-- `FWInfoReader.handler(payload)`: decode the firmware-info response
(`parseSerial` stands for the external protobuf codec, returning the serial
number field when present) and resolve the serial future if it is not yet
done; parse failures and responses without the field leave the slot
untouched. -/
def handler (parseSerial : List Nat → Option String) (slot : Slot String)
    (payload : List Nat) : Slot String :=
  match parseSerial payload with
  | some sn =>
    match slot with
    | Slot.pending => Slot.resolved sn
    | s => s
  | none => slot

/-- `FWInfoReader.wait_serial()`: `return await self._serial_future` — a bare
await with no timeout.  Modelled over the slot state with asyncio semantics:
awaiting a resolved future completes with its value; awaiting a future nobody
resolves suspends forever. -/
def wait_serial (slot : Slot String) : WaitOutcome (Option String) :=
  match slot with
  | Slot.resolved v => WaitOutcome.completes (some v)
  | _ => WaitOutcome.suspends

end FWInfoReader

/-- C9: every correlator slot is fulfilled at most once.  A settings chunk
arriving after the response future is already resolved leaves the resolved
value unchanged; a completed JSON arriving while no future is allocated is a
no-op; and a firmware-info response arriving after the serial future is
resolved leaves the resolved serial unchanged. -/
theorem slot_single_fulfillment
    (loads : List Char → Option JVal) (st : SettingsHandler.HandlerState)
    (chunk : List Char) (parseSerial : List Nat → Option String)
    (payload : List Nat) (v : Option JVal) (w : String) :
    (st.response_future = Slot.resolved v →
      (SettingsHandler.handle loads st chunk).response_future = Slot.resolved v)
    ∧ (st.response_future = Slot.noFuture →
      (SettingsHandler.handle loads st chunk).response_future = Slot.noFuture)
    ∧ FWInfoReader.handler parseSerial (Slot.resolved w) payload
        = Slot.resolved w := by
  refine ⟨?_, ?_, ?_⟩
  · intro h
    unfold SettingsHandler.handle
    rw [h]
    split
    · next heq => simp at heq
    · dsimp only
      split <;> rfl
  · intro h
    unfold SettingsHandler.handle
    rw [h]
    split
    · next heq => simp at heq
    · dsimp only
      split <;> rfl
  · unfold FWInfoReader.handler
    cases parseSerial payload <;> rfl

/-- C9 witness: a resolved settings slot survives a further complete JSON
chunk, an absent future is left absent, and a resolved serial slot survives a
further firmware-info response. -/
theorem slot_single_fulfillment_witness :
    ((SettingsHandler.HandlerState.mk [] 0 false (Slot.resolved (some JVal.null))
        : SettingsHandler.HandlerState).response_future
      = Slot.resolved (some JVal.null)
    ∧ (SettingsHandler.HandlerState.mk [] 0 false Slot.noFuture
        : SettingsHandler.HandlerState).response_future = Slot.noFuture)
    ∧ ((SettingsHandler.handle (fun _ => none)
          ⟨[], 0, false, Slot.resolved (some JVal.null)⟩
          [lbrace, rbrace]).response_future = Slot.resolved (some JVal.null)
      ∧ (SettingsHandler.handle (fun _ => none)
          ⟨[], 0, false, Slot.noFuture⟩
          [lbrace, rbrace]).response_future = Slot.noFuture
      ∧ FWInfoReader.handler (fun _ => some "SN") (Slot.resolved "S0") [1, 2]
          = Slot.resolved "S0") :=
  ⟨⟨rfl, rfl⟩,
   ⟨(slot_single_fulfillment (fun _ => none)
        ⟨[], 0, false, Slot.resolved (some JVal.null)⟩ [lbrace, rbrace]
        (fun _ => some "SN") [1, 2] (some JVal.null) "S0").1 rfl,
    (slot_single_fulfillment (fun _ => none)
        ⟨[], 0, false, Slot.noFuture⟩ [lbrace, rbrace]
        (fun _ => some "SN") [1, 2] (some JVal.null) "S0").2.1 rfl,
    (slot_single_fulfillment (fun _ => none)
        ⟨[], 0, false, Slot.noFuture⟩ [lbrace, rbrace]
        (fun _ => some "SN") [1, 2] (some JVal.null) "S0").2.2⟩⟩

namespace Orchestrator

/-- The `setup_access_settings` mapping of `main`, parametrised by the
base64-encoded AUTH_KEY (a configuration constant). -/
def setup_access_settings (key64 : String) : List (String × JVal) :=
  [("settings/acl_0", JVal.str "//////////////////////////////////////////8="),
   ("settings/key_0", JVal.str key64),
   ("save", JVal.bool true)]

/-- The `lock_settings` mapping of `main`. -/
def lock_settings : List (String × JVal) :=
  [("settings/lock", JVal.bool true), ("save", JVal.bool true)]

/-- The `settings_to_send` mapping of `main`. -/
def settings_to_send : List (String × JVal) :=
  [("app/brightness", JVal.int 25), ("save", JVal.bool true)]

/-- Environment of one provisioning run: what the device answers at each
await point.  `none` stands for a timeout (the settings wait returns `None`)
or, for `serial`, for a firmware-info response that never arrives. -/
structure Env where
  initialResponse : Option (List (String × JVal))
  setupResponse : Option (List (String × JVal))
  lockResponse : Option (List (String × JVal))
  serial : Option String
  signResponse : Option (List (String × JVal))
deriving DecidableEq, Repr

/-- `upload_settings(transport, handler, payload, verify_dict)` of `main.py`,
as a function of the read-back response: `False` when no (or a falsy) JSON
arrives, the verifier's verdict when a verify mapping is given, `True`
otherwise. -/
def upload_settings (response : Option (List (String × JVal)))
    (verify_dict : List (String × JVal)) : Bool :=
  match response with
  | none => false
  | some received =>
    if received.isEmpty then false
    else if verify_dict.isEmpty then true
    else SettingsHandler.verify verify_dict received

/-- The provisioning steps of `main`, in the order the orchestrator reaches
them. -/
inductive Step where
  | readInitial : Step
  | setupAccess : Step
  | lockStep : Step
  | fetchSerial : Step
  | signUpload : Step
  | restart : Step
  | reconnect : Step
deriving DecidableEq, Repr

/-- Control flow of `main()`: initial read (stop on falsy response), the
conditional SetupAccess/Lock sequence with `return` on verification failure,
the serial fetch (a bare await: the trace ends if no response ever arrives),
the signed upload whose result `main` never examines, then the restart frame
and the reconnect loop.  Returns the trace of steps reached. -/
def mainRun (key64 : String) (env : Env) : List Step :=
  Step.readInitial ::
  (match env.initialResponse with
   | none => []
   | some received =>
     if received.isEmpty then []
     else
       let is_locked :=
         jtruthy ((dictLookup received "settings/lock").getD (JVal.bool false))
       let signedFlow : List Step :=
         Step.fetchSerial ::
         (match env.serial with
          | none => []
          | some _ =>
            let _ok := upload_settings env.signResponse settings_to_send
            [Step.signUpload, Step.restart, Step.reconnect])
       if is_locked then signedFlow
       else
         Step.setupAccess ::
         (if upload_settings env.setupResponse (setup_access_settings key64) then
            Step.lockStep ::
              (if upload_settings env.lockResponse lock_settings then signedFlow
               else [])
          else []))

end Orchestrator

/-- C2 counterexample: a run in which every step up to SignAndUpload succeeds
(device already locked, serial fetched) but the signed-settings read-back
fails verification — `upload_settings` returns false — yet `main` performs
the Restart and Reconnect steps anyway: the result of the signed upload is
never examined. -/
theorem orchestrator_sign_failure_cex :
    Orchestrator.upload_settings (some [("x", JVal.int 0)])
        Orchestrator.settings_to_send = false
    ∧ Orchestrator.mainRun "KEY"
        ⟨some [("settings/lock", JVal.bool true)], none, none, some "SN1",
         some [("x", JVal.int 0)]⟩
      = [Orchestrator.Step.readInitial, Orchestrator.Step.fetchSerial,
         Orchestrator.Step.signUpload, Orchestrator.Step.restart,
         Orchestrator.Step.reconnect] :=
  ⟨rfl, rfl⟩

/-- C2 (amended): failures in ReadInitial, SetupAccess and Lock are terminal
(the run stops and Restart/Reconnect never appear in the trace), but a
SignAndUpload verification failure or read-back timeout is not: `main`
ignores the result of the final `upload_settings` call, and Restart and
Reconnect still happen. -/
theorem orchestrator_terminality_amended (key64 : String)
    (env : Orchestrator.Env) :
    (env.initialResponse = none →
      Orchestrator.mainRun key64 env = [Orchestrator.Step.readInitial])
    ∧ (∀ received, env.initialResponse = some received →
        received.isEmpty = true →
        Orchestrator.mainRun key64 env = [Orchestrator.Step.readInitial])
    ∧ (∀ received, env.initialResponse = some received →
        received.isEmpty = false →
        jtruthy ((dictLookup received "settings/lock").getD (JVal.bool false))
          = false →
        Orchestrator.upload_settings env.setupResponse
          (Orchestrator.setup_access_settings key64) = false →
        Orchestrator.mainRun key64 env
          = [Orchestrator.Step.readInitial, Orchestrator.Step.setupAccess])
    ∧ (∀ received, env.initialResponse = some received →
        received.isEmpty = false →
        jtruthy ((dictLookup received "settings/lock").getD (JVal.bool false))
          = false →
        Orchestrator.upload_settings env.setupResponse
          (Orchestrator.setup_access_settings key64) = true →
        Orchestrator.upload_settings env.lockResponse
          Orchestrator.lock_settings = false →
        Orchestrator.mainRun key64 env
          = [Orchestrator.Step.readInitial, Orchestrator.Step.setupAccess,
             Orchestrator.Step.lockStep])
    ∧ (∀ received sn, env.initialResponse = some received →
        received.isEmpty = false →
        jtruthy ((dictLookup received "settings/lock").getD (JVal.bool false))
          = true →
        env.serial = some sn →
        Orchestrator.upload_settings env.signResponse
          Orchestrator.settings_to_send = false →
        Orchestrator.Step.restart ∈ Orchestrator.mainRun key64 env
        ∧ Orchestrator.Step.reconnect ∈ Orchestrator.mainRun key64 env) := by
  refine ⟨?_, ?_, ?_, ?_, ?_⟩
  · intro h
    simp [Orchestrator.mainRun, h]
  · intro received h1 h2
    simp [Orchestrator.mainRun, h1, h2]
  · intro received h1 h2 h3 h4
    simp [Orchestrator.mainRun, h1, h2, h3, h4]
  · intro received h1 h2 h3 h4 h5
    simp [Orchestrator.mainRun, h1, h2, h3, h4, h5]
  · intro received sn h1 h2 h3 h4 h5
    simp [Orchestrator.mainRun, h1, h2, h3, h4]

/-- C2 witness: a failing SetupAccess run stops at SetupAccess, while a
failing SignAndUpload run still restarts and reconnects. -/
theorem orchestrator_terminality_amended_witness :
    ((Orchestrator.Env.mk (some [("a", JVal.int 1)]) (some [("b", JVal.int 2)])
        none none none).initialResponse = some [("a", JVal.int 1)]
      ∧ Orchestrator.mainRun "KEY"
          ⟨some [("a", JVal.int 1)], some [("b", JVal.int 2)], none, none, none⟩
        = [Orchestrator.Step.readInitial, Orchestrator.Step.setupAccess])
    ∧ (Orchestrator.Step.restart ∈ Orchestrator.mainRun "KEY"
          ⟨some [("settings/lock", JVal.bool true)], none, none, some "SN1",
           some [("x", JVal.int 0)]⟩
      ∧ Orchestrator.Step.reconnect ∈ Orchestrator.mainRun "KEY"
          ⟨some [("settings/lock", JVal.bool true)], none, none, some "SN1",
           some [("x", JVal.int 0)]⟩) :=
  ⟨⟨rfl,
    (orchestrator_terminality_amended "KEY"
        ⟨some [("a", JVal.int 1)], some [("b", JVal.int 2)], none, none, none⟩).2.2.1
      [("a", JVal.int 1)] rfl rfl rfl rfl⟩,
   (orchestrator_terminality_amended "KEY"
        ⟨some [("settings/lock", JVal.bool true)], none, none, some "SN1",
         some [("x", JVal.int 0)]⟩).2.2.2.2
      [("settings/lock", JVal.bool true)] "SN1" rfl rfl rfl rfl rfl⟩

/-- C5 counterexample: `wait_serial` on a never-fulfilled serial future
suspends — it does not complete with an absence value — and a run whose
firmware-info response never arrives hangs inside FetchSerial: the trace ends
there, and no absence is surfaced to the orchestrator. -/
theorem wait_serial_timeout_cex :
    FWInfoReader.wait_serial Slot.pending = WaitOutcome.suspends
    ∧ FWInfoReader.wait_serial Slot.pending ≠ WaitOutcome.completes none
    ∧ Orchestrator.mainRun "KEY"
        ⟨some [("settings/lock", JVal.bool true)], none, none, none, none⟩
      = [Orchestrator.Step.readInitial, Orchestrator.Step.fetchSerial] :=
  ⟨rfl, by decide, rfl⟩

/-- C5 (amended): the FetchSerial wait has no timeout of its own.
`wait_serial` completes only once the serial future is resolved; while it is
pending the await suspends indefinitely, and in a run whose firmware-info
response never arrives the orchestrator never reaches SignAndUpload, Restart
or Reconnect. -/
theorem wait_serial_amended (key64 : String) (env : Orchestrator.Env)
    (sn : String) :
    FWInfoReader.wait_serial Slot.pending = WaitOutcome.suspends
    ∧ FWInfoReader.wait_serial (Slot.resolved sn)
        = WaitOutcome.completes (some sn)
    ∧ (env.serial = none →
        Orchestrator.Step.signUpload ∉ Orchestrator.mainRun key64 env
        ∧ Orchestrator.Step.restart ∉ Orchestrator.mainRun key64 env
        ∧ Orchestrator.Step.reconnect ∉ Orchestrator.mainRun key64 env) := by
  refine ⟨rfl, rfl, ?_⟩
  intro h
  cases henv : env.initialResponse with
  | none => simp [Orchestrator.mainRun, henv]
  | some received =>
    cases he : received.isEmpty with
    | true => simp [Orchestrator.mainRun, henv, he]
    | false =>
      cases hb1 : jtruthy ((dictLookup received "settings/lock").getD
          (JVal.bool false)) with
      | true => simp [Orchestrator.mainRun, henv, he, hb1, h]
      | false =>
        cases hb2 : Orchestrator.upload_settings env.setupResponse
            (Orchestrator.setup_access_settings key64) with
        | false => simp [Orchestrator.mainRun, henv, he, hb1, hb2, h]
        | true =>
          cases hb3 : Orchestrator.upload_settings env.lockResponse
              Orchestrator.lock_settings with
          | false => simp [Orchestrator.mainRun, henv, he, hb1, hb2, hb3, h]
          | true => simp [Orchestrator.mainRun, henv, he, hb1, hb2, hb3, h]

/-- C5 witness: the amended theorem evaluated on a locked device whose
firmware-info response never arrives. -/
theorem wait_serial_amended_witness :
    ((Orchestrator.Env.mk (some [("settings/lock", JVal.bool true)]) none none
        none none).serial = none)
    ∧ (Orchestrator.Step.signUpload ∉ Orchestrator.mainRun "KEY"
          ⟨some [("settings/lock", JVal.bool true)], none, none, none, none⟩
      ∧ Orchestrator.Step.restart ∉ Orchestrator.mainRun "KEY"
          ⟨some [("settings/lock", JVal.bool true)], none, none, none, none⟩
      ∧ Orchestrator.Step.reconnect ∉ Orchestrator.mainRun "KEY"
          ⟨some [("settings/lock", JVal.bool true)], none, none, none, none⟩)
    ∧ FWInfoReader.wait_serial (Slot.resolved "SN")
        = WaitOutcome.completes (some "SN") :=
  ⟨rfl,
   (wait_serial_amended "KEY"
      ⟨some [("settings/lock", JVal.bool true)], none, none, none, none⟩
      "SN").2.2 rfl,
   (wait_serial_amended "KEY"
      ⟨some [("settings/lock", JVal.bool true)], none, none, none, none⟩
      "SN").2.1⟩

/-- One hexadecimal digit, lowercase, as used by `json.dumps` in `\uXXXX`
escapes. -/
def hexDigit (n : Nat) : Char :=
  "0123456789abcdef".toList.getD n '0'

/-- Escaping of one character inside a JSON string literal, following
`json.dumps` with its default `ensure_ascii=True` (characters of the Basic
Multilingual Plane; the repository only serializes ASCII keys and values). -/
def escapeChar (c : Char) : List Char :=
  if c = '\"' then ['\\', '\"']
  else if c = '\\' then ['\\', '\\']
  else if c = Char.ofNat 10 then ['\\', 'n']
  else if c = Char.ofNat 13 then ['\\', 'r']
  else if c = Char.ofNat 9 then ['\\', 't']
  else if c.toNat < 32 ∨ c.toNat > 126 then
    ['\\', 'u', hexDigit (c.toNat / 4096 % 16), hexDigit (c.toNat / 256 % 16),
     hexDigit (c.toNat / 16 % 16), hexDigit (c.toNat % 16)]
  else [c]

/-- A JSON string literal: quote, escaped characters, quote. -/
def jstring (s : String) : List Char :=
  '\"' :: (s.toList.map escapeChar).flatten ++ ['\"']

mutual

/-- `json.dumps` with its default separators (`", "` between items, `": "`
after a key). -/
def dumps : JVal → List Char
  | .null => "null".toList
  | .bool true => "true".toList
  | .bool false => "false".toList
  | .int n => (toString n).toList
  | .str s => jstring s
  | .arr es => '[' :: dumpsList es ++ [']']
  | .obj fs => lbrace :: dumpsFields fs ++ [rbrace]

def dumpsList : List JVal → List Char
  | [] => []
  | [v] => dumps v
  | v :: t => dumps v ++ ", ".toList ++ dumpsList t

def dumpsFields : List (String × JVal) → List Char
  | [] => []
  | [(k, v)] => jstring k ++ ": ".toList ++ dumps v
  | (k, v) :: t => jstring k ++ ": ".toList ++ dumps v ++ ", ".toList ++ dumpsFields t

end

/-- The base64 alphabet. -/
def b64alphabet : List Char :=
  "ABCDEFGHIJKLMNOPQRSTUVWXYZabcdefghijklmnopqrstuvwxyz0123456789+/".toList

/-- One base64 alphabet character. -/
def b64char (i : Nat) : Char :=
  b64alphabet.getD i 'A'

/-- `base64.b64encode`: standard base64 with `=` padding, three input bytes
per four output characters. -/
def b64encode : List Nat → List Char
  | [] => []
  | [a] => [b64char (a / 4), b64char (a % 4 * 16), '=', '=']
  | [a, b] => [b64char (a / 4), b64char (a % 4 * 16 + b / 16),
               b64char (b % 16 * 4), '=']
  | a :: b :: c :: t =>
      [b64char (a / 4), b64char (a % 4 * 16 + b / 16),
       b64char (b % 16 * 4 + c / 64), b64char (c % 64)] ++ b64encode t

/-- Python dict item assignment `d[k] = v` on an ordered mapping: overwrite
in place when the key exists, append otherwise. -/
def dictSet (m : List (String × JVal)) (k : String) (v : JVal) :
    List (String × JVal) :=
  if m.any fun p => p.1 = k then
    m.map fun p => if p.1 = k then (k, v) else p
  else m ++ [(k, v)]

namespace DTSettingsAuthorizer

/-- pycryptodome nonce selection for `AES.new(key, AES.MODE_CCM, ...)`: an
explicit `nonce=` argument is used as given; when the argument is omitted the
library draws a random 11-byte nonce from ambient randomness `rng`. -/
def AES_CCM_nonce (nonceArg : Option (List Nat)) (rng : List Nat) : List Nat :=
  match nonceArg with
  | some n => n
  | none => rng.take 11

/-- `DTSettingsAuthorizer.sign_settings(settings, serial)`: copy the mapping,
bind the serial under `"sn"`, serialize and base64-encode as the content,
compute the AES-CCM tag over the content bytes under the fixed all-zero
13-byte nonce (`nonce=bytearray(13)`; `ccmDigest` stands for the cipher's
tag computation, `rng` for the ambient randomness a nonce-less call would
consume), and return the `cnt`/`sig` envelope. -/
def sign_settings (ccmDigest : List Nat → List Nat → List Nat → List Nat)
    (rng : List Nat) (key : List Nat) (settings : List (String × JVal))
    (serial : String) : JVal :=
  let settings_with_sn := dictSet settings "sn" (JVal.str serial)
  let content := b64encode ((dumps (JVal.obj settings_with_sn)).map Char.toNat)
  let nonce := AES_CCM_nonce (some (List.replicate 13 0)) rng
  let tag := ccmDigest key nonce (content.map Char.toNat)
  let signature := b64encode tag
  JVal.obj [("cnt", JVal.str (String.mk content)),
            ("sig", JVal.str (String.mk signature))]

end DTSettingsAuthorizer

/-- C7: with a fixed symmetric key and any fixed (deterministic) tag
primitive, `sign_settings` is deterministic: two calls with the same settings
mapping (same keys, values and insertion order) and the same serial produce
byte-identical envelopes — in both the content and the signature field — even
when the ambient randomness differs between the calls, because the nonce is
pinned to the fixed all-zero 13-byte value and nothing else is drawn from the
environment. -/
theorem sign_settings_deterministic
    (ccmDigest : List Nat → List Nat → List Nat → List Nat)
    (rng₁ rng₂ : List Nat) (key : List Nat) (settings : List (String × JVal))
    (serial : String) :
    DTSettingsAuthorizer.sign_settings ccmDigest rng₁ key settings serial
      = DTSettingsAuthorizer.sign_settings ccmDigest rng₂ key settings serial := rfl

/-- Net brace depth change contributed by a character sequence: +1 per
opening brace, −1 per closing brace. -/
def braceDelta : List Char → Int
  | [] => 0
  | c :: t => (if c = lbrace then 1 else if c = rbrace then -1 else 0) + braceDelta t

/-- Does the character sequence contain an opening brace? -/
def hasLB : List Char → Bool
  | [] => false
  | c :: t => decide (c = lbrace) || hasLB t

theorem braceDelta_append : ∀ a b : List Char,
    braceDelta (a ++ b) = braceDelta a + braceDelta b
  | [], b => by simp [braceDelta]
  | c :: t, b => by
    simp only [List.cons_append, braceDelta, List.append_eq]
    rw [braceDelta_append t b]
    ring

theorem hasLB_append : ∀ a b : List Char,
    hasLB (a ++ b) = (hasLB a || hasLB b)
  | [], b => by simp [hasLB]
  | c :: t, b => by
    simp only [List.cons_append, hasLB, List.append_eq]
    rw [hasLB_append t b, Bool.or_assoc]

theorem braceStep_foldl : ∀ (chunk : List Char) (bc : Int) (ij : Bool),
    chunk.foldl SettingsHandler.braceStep (bc, ij)
      = (bc + braceDelta chunk, ij || hasLB chunk)
  | [], bc, ij => by simp [braceDelta, hasLB]
  | c :: t, bc, ij => by
    rw [List.foldl_cons]
    by_cases h1 : c = lbrace
    · subst h1
      rw [show SettingsHandler.braceStep (bc, ij) lbrace = (bc + 1, true) from by
        simp [SettingsHandler.braceStep]]
      rw [braceStep_foldl t (bc + 1) true]
      rw [show braceDelta (lbrace :: t) = 1 + braceDelta t from by
        simp [braceDelta]]
      rw [show hasLB (lbrace :: t) = true from by simp [hasLB]]
      simp only [Prod.mk.injEq]
      exact ⟨by ring, by simp⟩
    · by_cases h2 : c = rbrace
      · subst h2
        rw [show SettingsHandler.braceStep (bc, ij) rbrace = (bc - 1, ij) from by
          simp [SettingsHandler.braceStep, show ¬(rbrace = lbrace) from by decide]]
        rw [braceStep_foldl t (bc - 1) ij]
        rw [show braceDelta (rbrace :: t) = -1 + braceDelta t from by
          simp [braceDelta, show ¬(rbrace = lbrace) from by decide]]
        rw [show hasLB (rbrace :: t) = hasLB t from by
          simp [hasLB, show ¬(rbrace = lbrace) from by decide]]
        simp only [Prod.mk.injEq]
        exact ⟨by ring, trivial⟩
      · rw [show SettingsHandler.braceStep (bc, ij) c = (bc, ij) from by
          simp [SettingsHandler.braceStep, h1, h2]]
        rw [braceStep_foldl t bc ij]
        rw [show braceDelta (c :: t) = 0 + braceDelta t from by
          simp [braceDelta, h1, h2]]
        rw [show hasLB (c :: t) = hasLB t from by simp [hasLB, h1]]
        simp only [Prod.mk.injEq]
        exact ⟨by ring, trivial⟩

/-- The handler state reached after buffering the text `j` with no completed
object yet and a pending waiter. -/
def accumState (j : List Char) : SettingsHandler.HandlerState :=
  ⟨j, braceDelta j, hasLB j, Slot.pending⟩

theorem feedChunks_cons (loads : List Char → Option JVal)
    (st : SettingsHandler.HandlerState) (c : List Char)
    (rest : List (List Char)) :
    SettingsHandler.feedChunks loads st (c :: rest)
      = SettingsHandler.feedChunks loads (SettingsHandler.handle loads st c) rest
  := rfl

theorem handle_accum_pos (loads : List Char → Option JVal) (j c : List Char)
    (hpos : hasLB (j ++ c) = true) (hz : braceDelta (j ++ c) = 0) :
    SettingsHandler.handle loads (accumState j) c
      = ⟨[], braceDelta (j ++ c), false, Slot.resolved (loads (j ++ c))⟩ := by
  simp only [SettingsHandler.handle, accumState]
  rw [braceStep_foldl c (braceDelta j) (hasLB j), ← braceDelta_append,
    ← hasLB_append]
  rw [if_pos ⟨hpos, hz⟩]

theorem handle_accum_neg (loads : List Char → Option JVal) (j c : List Char)
    (hneg : ¬(hasLB (j ++ c) = true ∧ braceDelta (j ++ c) = 0)) :
    SettingsHandler.handle loads (accumState j) c = accumState (j ++ c) := by
  simp only [SettingsHandler.handle, accumState]
  rw [braceStep_foldl c (braceDelta j) (hasLB j), ← braceDelta_append,
    ← hasLB_append]
  rw [if_neg hneg]

theorem handle_mid (loads : List Char → Option JVal) (s j c r : List Char)
    (hs : j ++ c ++ r = s) (hr : r ≠ [])
    (h5 : ∀ i, i < s.length → hasLB (s.take i) = true →
      braceDelta (s.take i) ≠ 0) :
    SettingsHandler.handle loads (accumState j) c = accumState (j ++ c) := by
  apply handle_accum_neg
  rintro ⟨hlb, hdelta⟩
  have hi : (j ++ c).length < s.length := by
    rw [← hs]
    simp only [List.length_append]
    have : 0 < r.length := List.length_pos.mpr hr
    omega
  have htake : s.take (j ++ c).length = j ++ c := by
    rw [← hs]
    exact List.take_left _ _
  have := h5 (j ++ c).length hi
  rw [htake] at this
  exact this hlb hdelta

theorem handle_final (loads : List Char → Option JVal) (s j c : List Char)
    (hs : j ++ c = s) (h3 : braceDelta s = 0) (h4 : hasLB s = true) :
    SettingsHandler.handle loads (accumState j) c
      = ⟨[], 0, false, Slot.resolved (loads s)⟩ := by
  rw [handle_accum_pos loads j c (by rw [hs]; exact h4) (by rw [hs]; exact h3),
    hs, h3]

theorem feed_final (loads : List Char → Option JVal) (v : Option JVal) :
    ∀ cs : List (List Char), cs.flatten = [] →
      SettingsHandler.feedChunks loads ⟨[], 0, false, Slot.resolved v⟩ cs
        = ⟨[], 0, false, Slot.resolved v⟩
  | [], _ => rfl
  | c :: rest, h => by
    obtain ⟨rfl, hrest⟩ : c = [] ∧ rest.flatten = [] := by
      simpa [List.flatten_cons] using h
    rw [feedChunks_cons,
      show SettingsHandler.handle loads ⟨[], 0, false, Slot.resolved v⟩ []
        = ⟨[], 0, false, Slot.resolved v⟩ from rfl]
    exact feed_final loads v rest hrest

theorem feed_resolve (loads : List Char → Option JVal) (s : List Char)
    (h3 : braceDelta s = 0) (h4 : hasLB s = true)
    (h5 : ∀ i, i < s.length → hasLB (s.take i) = true →
      braceDelta (s.take i) ≠ 0) :
    ∀ (cs : List (List Char)) (j : List Char), j ++ cs.flatten = s → j ≠ s →
      SettingsHandler.feedChunks loads (accumState j) cs
        = ⟨[], 0, false, Slot.resolved (loads s)⟩
  | [], j, hj, hne => absurd (by simpa using hj) hne
  | c :: rest, j, hj, hne => by
    have hs' : (j ++ c) ++ rest.flatten = s := by
      rw [List.append_assoc]
      simpa [List.flatten_cons] using hj
    by_cases hcom : j ++ c = s
    · have hflat : rest.flatten = [] := by
        rw [hcom] at hs'
        have hlen := congrArg List.length hs'
        simp only [List.length_append] at hlen
        exact List.eq_nil_of_length_eq_zero (by omega)
      rw [feedChunks_cons, handle_final loads s j c hcom h3 h4]
      exact feed_final loads (loads s) rest hflat
    · have hr : rest.flatten ≠ [] := by
        intro h0
        apply hcom
        rw [h0] at hs'
        simpa using hs'
      rw [feedChunks_cons, handle_mid loads s j c rest.flatten hs' hr h5]
      exact feed_resolve loads s h3 h4 h5 rest (j ++ c) hs' hcom

theorem feed_pending (loads : List Char → Option JVal) (s : List Char)
    (h5 : ∀ i, i < s.length → hasLB (s.take i) = true →
      braceDelta (s.take i) ≠ 0) :
    ∀ (cs : List (List Char)) (j r : List Char),
      j ++ (cs.flatten ++ r) = s → j ++ cs.flatten ≠ s →
      SettingsHandler.feedChunks loads (accumState j) cs
        = accumState (j ++ cs.flatten)
  | [], j, r, _, _ => by
      simp [SettingsHandler.feedChunks]
  | c :: rest, j, r, hj, hne => by
    have hs' : (j ++ c) ++ (rest.flatten ++ r) = s := by
      simp only [List.flatten_cons, List.append_assoc] at hj ⊢
      exact hj
    have hne' : (j ++ c) ++ rest.flatten ≠ s := by
      simpa [List.flatten_cons, List.append_assoc] using hne
    have htail : rest.flatten ++ r ≠ [] := by
      intro h0
      obtain ⟨hf, hrr⟩ := List.append_eq_nil.mp h0
      apply hne'
      rw [hf, List.append_nil]
      rw [hf, hrr] at hs'
      simpa using hs'
    rw [feedChunks_cons,
      handle_mid loads s j c (rest.flatten ++ r) hs' htail h5,
      feed_pending loads s h5 rest (j ++ c) r hs' hne']
    rw [List.flatten_cons, ← List.append_assoc]

/-- A JSON object whose single string value contains a closing-brace
character. -/
def oCex : JVal := JVal.obj [("a", JVal.str (String.mk [rbrace]))]

/-- The `json.dumps` serialization of `oCex`. -/
def sCex : List Char :=
  [lbrace, '\"', 'a', '\"', ':', ' ', '\"', rbrace, '\"', rbrace]

/-- A parse function agreeing with `json.loads` on `sCex` (which is valid
JSON denoting `oCex`). -/
def loadsCex : List Char → Option JVal :=
  fun t => if t = sCex then some oCex else none

/-- C4 counterexample: for the object `{"a": "}"}` — whose serialization
contains brace characters inside a string value — feeding the complete
serialization to the JSON Reassembler never resolves the pending slot at all
(the naive brace count ends at −1), even though the parse function maps the
serialization to the object; the claimed exactly-once resolution with the
original object fails. -/
theorem json_reassembly_cex :
    dumps oCex = sCex
    ∧ loadsCex sCex = some oCex
    ∧ (SettingsHandler.feedChunks loadsCex ⟨[], 0, false, Slot.pending⟩
        [sCex]).response_future = Slot.pending
    ∧ (Slot.pending : Slot (Option JVal)) ≠ Slot.resolved (some oCex) := by
  refine ⟨?_, ?_, ?_, ?_⟩
  · simp [dumps, dumpsFields, jstring, escapeChar, oCex, sCex, lbrace, rbrace,
      hexDigit]
  · simp [loadsCex]
  · rfl
  · simp

/-- C4 (amended): for every parse function, object `o` and serialization `s`
on which the parse function yields `o`, provided the brace characters of `s`
are purely structural — the net brace count of `s` is zero, `s` contains an
opening brace, and no proper prefix of `s` that has already seen an opening
brace has net count zero — feeding any partition of `s` to the JSON
Reassembler resolves the pending slot exactly once, with `o`, at the final
chunk: the final state is the reset state with the slot resolved, and after
every proper chunk prefix the slot is still pending. -/
theorem json_reassembly_amended
    (loads : List Char → Option JVal) (o : JVal) (s : List Char)
    (chunks : List (List Char))
    (h1 : chunks.flatten = s)
    (h2 : loads s = some o)
    (h3 : braceDelta s = 0)
    (h4 : hasLB s = true)
    (h5 : ∀ i, i < s.length → hasLB (s.take i) = true →
      braceDelta (s.take i) ≠ 0) :
    SettingsHandler.feedChunks loads ⟨[], 0, false, Slot.pending⟩ chunks
      = ⟨[], 0, false, Slot.resolved (some o)⟩
    ∧ ∀ pre, pre <+: chunks → pre.flatten ≠ s →
        (SettingsHandler.feedChunks loads ⟨[], 0, false, Slot.pending⟩
          pre).response_future = Slot.pending := by
  have hinit : (⟨[], 0, false, Slot.pending⟩ : SettingsHandler.HandlerState)
      = accumState [] := rfl
  have hsne : ([] : List Char) ≠ s := by
    intro h0
    rw [← h0] at h4
    simp [hasLB] at h4
  constructor
  · rw [hinit,
      feed_resolve loads s h3 h4 h5 chunks [] (by simpa using h1) hsne, h2]
  · intro pre hpre hne
    obtain ⟨suf, rfl⟩ := hpre
    rw [hinit,
      feed_pending loads s h5 pre [] suf.flatten
        (by simpa [List.flatten_append] using h1) (by simpa using hne)]
    rfl

/-- A plain JSON object with purely structural braces. -/
def oWit : JVal := JVal.obj [("a", JVal.int 1)]

/-- The `json.dumps` serialization of `oWit`. -/
def sWit : List Char := [lbrace, '\"', 'a', '\"', ':', ' ', '1', rbrace]

/-- A parse function agreeing with `json.loads` on `sWit`. -/
def loadsWit : List Char → Option JVal :=
  fun t => if t = sWit then some oWit else none

/-- C4 witness: the serialization of `{"a": 1}` split into two chunks
resolves the slot exactly once with the object. -/
theorem json_reassembly_amended_witness :
    (([[lbrace, '\"', 'a'], ['\"', ':', ' ', '1', rbrace]]
        : List (List Char)).flatten = sWit
      ∧ loadsWit sWit = some oWit
      ∧ braceDelta sWit = 0
      ∧ hasLB sWit = true
      ∧ ∀ i, i < sWit.length → hasLB (sWit.take i) = true →
          braceDelta (sWit.take i) ≠ 0)
    ∧ (SettingsHandler.feedChunks loadsWit ⟨[], 0, false, Slot.pending⟩
          [[lbrace, '\"', 'a'], ['\"', ':', ' ', '1', rbrace]]
        = ⟨[], 0, false, Slot.resolved (some oWit)⟩
      ∧ ∀ pre, pre <+: [[lbrace, '\"', 'a'], ['\"', ':', ' ', '1', rbrace]] →
          pre.flatten ≠ sWit →
          (SettingsHandler.feedChunks loadsWit ⟨[], 0, false, Slot.pending⟩
            pre).response_future = Slot.pending) :=
  ⟨⟨rfl, by simp [loadsWit], by decide, rfl, by decide⟩,
   json_reassembly_amended loadsWit oWit sWit
     [[lbrace, '\"', 'a'], ['\"', ':', ' ', '1', rbrace]]
     rfl (by simp [loadsWit]) (by decide) rfl (by decide)⟩

end DeviceConfig
